import Mathlib

/-!
Verification of the task-ingestion pipeline and task organizer of the
ai-task-app repository (src/App.tsx), via a shallow embedding in Lean.
Strings are modelled as lists of characters; JavaScript regular-expression
scanning is modelled by explicit left-to-right recursion; epoch-millisecond
timestamps are modelled as integers; JavaScript truthiness on numbers is
modelled by explicit zero tests.
-/

namespace App

/-- The three priority levels (`type Priority` in App.tsx). -/
inductive Priority where
  | low
  | medium
  | high
deriving Repr, DecidableEq

/-- A subtask record (`{id, title, done}` in App.tsx). -/
structure Subtask where
  id : String
  title : String
  done : Bool
deriving Repr, DecidableEq

/-- The persistent task record (`type Task` in App.tsx).  Optional fields
are `Option`; `notes`, `due`, `project`, `subtasks` are optional in the
TypeScript type (`subtasks` is modelled as a plain list since every code
path treats a missing `subtasks` as empty). -/
structure Task where
  id : String
  title : String
  notes : Option String
  createdAt : Int
  due : Option Int
  tags : List String
  project : Option String
  priority : Priority
  done : Bool
  subtasks : List Subtask
deriving Repr, DecidableEq

/-! ### Character and string scanning utilities -/

/-- Character class of the tag pattern `#([\p{L}\p{N}_:-]+)`: letters,
digits, underscore, colon, hyphen (the Unicode letter/number classes are
modelled by `Char.isAlpha`/`Char.isDigit`; all inputs considered here are
ASCII). -/
def isTagChar (c : Char) : Bool :=
  c.isAlpha || c.isDigit || c = '_' || c = ':' || c = '-'

/-- Word characters for the regex `\b` boundary (`\w` = letters, digits,
underscore). -/
def isWordChar (c : Char) : Bool :=
  c.isAlpha || c.isDigit || c = '_'

/-- Lowercase a character list (JavaScript `toLowerCase`, ASCII range). -/
def lowerStr (l : List Char) : List Char :=
  l.map Char.toLower

/-- Does the pattern occur as a prefix of the list (case sensitive)? -/
def startsList : List Char → List Char → Bool
  | [], _ => true
  | _ :: _, [] => false
  | p :: ps, c :: cs => p = c && startsList ps cs

/-- Does the lowercase pattern occur as a prefix, comparing
case-insensitively (regex `i` flag)? -/
def ciStarts : List Char → List Char → Bool
  | [], _ => true
  | _ :: _, [] => false
  | p :: ps, c :: cs => p = c.toLower && ciStarts ps cs

/-- Does the pattern occur as a substring? -/
def hasSub (pat : List Char) : List Char → Bool
  | [] => pat.isEmpty
  | c :: cs => startsList pat (c :: cs) || hasSub pat cs

/-- Is the position boundary-suitable for `\b` at both ends of a keyword:
the previous character (if any) and the following character (if any) are
not word characters?  (All keywords used consist of word characters.) -/
def boundaryOk (prev : Option Char) (rest : List Char) : Bool :=
  !(prev.any isWordChar) && !(rest.head?.any isWordChar)

/-- Scan for a whole-word occurrence of the keyword, tracking the previous
character for the left `\b` boundary. -/
def hasWordFrom (kw : List Char) (prev : Option Char) : List Char → Bool
  | [] => false
  | c :: cs =>
    (startsList kw (c :: cs) && boundaryOk prev ((c :: cs).drop kw.length))
      || hasWordFrom kw (some c) cs

/-- Whole-word (`\b`-delimited) occurrence of a keyword in a list. -/
def hasWord (kw : List Char) (s : List Char) : Bool :=
  hasWordFrom kw none s

/-! ### Token extraction (`extractTokens`, App.tsx lines 87-101) -/

/-- All matches of the tag regex `#([\p{L}\p{N}_:-]+)` (global scan,
leftmost, greedy), returning the captured groups in order. -/
def tagMatches : List Char → List (List Char)
  | [] => []
  | c :: rest =>
    if c = '#' && rest.head?.any isTagChar then
      rest.takeWhile isTagChar :: tagMatches (rest.dropWhile isTagChar)
    else
      tagMatches rest
termination_by l => l.length
decreasing_by
  all_goals simp only [List.length_cons]
  all_goals first
    | exact Nat.lt_succ_of_le (List.dropWhile_sublist _).length_le
    | omega

/-- Removal of every tag match from the text (the first `.replace` in the
cleaning chain). -/
def stripTags : List Char → List Char
  | [] => []
  | c :: rest =>
    if c = '#' && rest.head?.any isTagChar then
      stripTags (rest.dropWhile isTagChar)
    else
      c :: stripTags rest
termination_by l => l.length
decreasing_by
  all_goals simp only [List.length_cons]
  all_goals first
    | exact Nat.lt_succ_of_le (List.dropWhile_sublist _).length_le
    | omega

/-- Deduplication keeping first occurrences (`Array.from(new Set(...))`). -/
def dedupFirst : List String → List String
  | [] => []
  | x :: xs => x :: dedupFirst (xs.filter (fun y => y ≠ x))
termination_by l => l.length
decreasing_by
  simp only [List.length_cons]
  exact Nat.lt_succ_of_le (List.filter_sublist _).length_le

/-- Attempted match of the priority alternation `(high|med(?:ium)?|low)`
(case-insensitive) at the head of the text following a `!`; returns the
consumed length and the lowercased captured group.  Alternatives are tried
in regex order: `high`, then `med` with greedy optional `ium`, then
`low`. -/
def prioAfterBang (s : List Char) : Option (Nat × List Char) :=
  if ciStarts "high".toList s then some (4, "high".toList)
  else if ciStarts "medium".toList s then some (6, "medium".toList)
  else if ciStarts "med".toList s then some (3, "med".toList)
  else if ciStarts "low".toList s then some (3, "low".toList)
  else none

/-- First match of `!(high|med(?:ium)?|low)` (the `text.match` call),
returning the lowercased captured group. -/
def findPrio : List Char → Option (List Char)
  | [] => none
  | c :: rest =>
    if c = '!' then
      match prioAfterBang rest with
      | some (_, g) => some g
      | none => findPrio rest
    else findPrio rest

/-- Removal of every priority-marker match (the second `.replace`). -/
def stripPrio : List Char → List Char
  | [] => []
  | c :: rest =>
    if c = '!' then
      match prioAfterBang rest with
      | some (n, _) => stripPrio (rest.drop n)
      | none => c :: stripPrio rest
    else c :: stripPrio rest
termination_by l => l.length
decreasing_by
  all_goals simp only [List.length_cons, List.length_drop]
  all_goals omega

/-- Collapse of every run of two or more whitespace characters into a
single space (`.replace(/\s{2,}/g, " ")`). -/
def collapseWs : List Char → List Char
  | [] => []
  | c :: rest =>
    if c.isWhitespace && rest.head?.any Char.isWhitespace then
      ' ' :: collapseWs (rest.dropWhile Char.isWhitespace)
    else
      c :: collapseWs rest
termination_by l => l.length
decreasing_by
  all_goals simp only [List.length_cons]
  all_goals first
    | exact Nat.lt_succ_of_le (List.dropWhile_sublist _).length_le
    | omega

/-- Leading-whitespace removal of `String.prototype.trim`. -/
def trimLeft (l : List Char) : List Char :=
  l.dropWhile Char.isWhitespace

/-- Trailing-whitespace removal of `String.prototype.trim`. -/
def trimRightWs (l : List Char) : List Char :=
  (l.reverse.dropWhile Char.isWhitespace).reverse

/-- Both-ends trim (`.trim()`). -/
def trimWs (l : List Char) : List Char :=
  trimRightWs (trimLeft l)

/-- Value of the captured priority group: `startsWith("high")` gives high,
`startsWith("low")` gives low, anything else (med/medium) gives medium. -/
def prioOfGroup (g : List Char) : Priority :=
  if startsList "high".toList g then .high
  else if startsList "low".toList g then .low
  else .medium

/-- Transient extraction result of `extractTokens`. -/
structure ExtractRes where
  cleaned : String
  tags : List String
  priority : Option Priority
deriving Repr, DecidableEq

/-- `extractTokens` (App.tsx lines 87-101): collects lowercased
deduplicated tag captures, the first priority marker, and the cleaned
text (tag matches removed, then priority markers removed, then whitespace
runs collapsed, then trimmed). -/
def extractTokens (text : String) : ExtractRes :=
  let cs := text.toList
  { cleaned := (trimWs (collapseWs (stripPrio (stripTags cs)))).asString
    tags := dedupFirst ((tagMatches cs).map (fun t => (lowerStr t).asString))
    priority := (findPrio cs).map prioOfGroup }

/-! ### Priority inference (`inferPriority`, App.tsx lines 72-84) -/

/-- The shared tail of `inferPriority`: planning keywords give low,
otherwise medium. -/
def planningOr (t : List Char) : Priority :=
  if hasWord "review".toList t || hasWord "plan".toList t
      || hasWord "someday".toList t then .low
  else .medium

/-- `inferPriority(text, due)` (App.tsx lines 72-84).  The call
`Date.now()` inside the function is made explicit as the parameter `now`.
The test `if (due)` is JavaScript truthiness: a due of `0` is skipped.
The comparison `(due - now) / 36e5 <= 24` is equivalent over the reals to
`due - now <= 86400000`, and similarly for 72 hours. -/
def inferPriority (now : Int) (text : String) (due : Option Int) : Priority :=
  let t := lowerStr text.toList
  if hasSub "!high".toList t || hasSub "!important".toList t
      || hasSub "!urgent".toList t
      || hasWord "urgent".toList t || hasWord "asap".toList t
      || hasWord "critical".toList t || hasWord "today".toList t then
    .high
  else if hasSub "!med".toList t then .medium
  else if hasSub "!low".toList t then .low
  else
    match due with
    | some d =>
      if d ≠ 0 then
        if d - now ≤ 86400000 then .high
        else if d - now ≤ 259200000 then .medium
        else planningOr t
      else planningOr t
    | none => planningOr t

/-- Modelled from the spec: the five-rule priority contract of spec
section 4.3, written for comparison against `inferPriority` — (1) urgency
keywords give high; (2) a set due within 24 hours gives high; (3) a set
due within 72 hours gives medium; (4) planning keywords give low;
(5) otherwise medium. -/
def inferPrioritySpec (now : Int) (text : String) (due : Option Int) : Priority :=
  let t := lowerStr text.toList
  if hasWord "urgent".toList t || hasWord "asap".toList t
      || hasWord "critical".toList t || hasWord "today".toList t then .high
  else if due.any (fun d => decide (d - now ≤ 86400000)) then .high
  else if due.any (fun d => decide (d - now ≤ 259200000)) then .medium
  else if hasWord "review".toList t || hasWord "plan".toList t
      || hasWord "someday".toList t then .low
  else .medium

/-! ### The ingestion pipeline (`parseTask`, App.tsx lines 104-123) -/

/-- One date match returned by the external resolver (chrono):
matched text, character offset, and resolved instant
(`first.text`, `first.index`, `first.date().getTime()`). -/
structure DateMatch where
  text : String
  index : Nat
  instant : Int
deriving Repr, DecidableEq

/-- The draft task produced by the pipeline (`Partial<Task>` fields that
`parseTask` populates). -/
structure Draft where
  title : String
  due : Option Int
  tags : List String
  priority : Priority
deriving Repr, DecidableEq

/-- `parseTask` (App.tsx lines 104-123).  The external date resolver
(`chrono.parse` with the current reference date and forward bias) is a
parameter `resolve`; only the first match is consumed.  The matched span
is excised from the cleaned text (`slice(0, start) + " " + slice(end)`),
whitespace is re-collapsed and trimmed, and an empty title falls back to
the cleaned text (`title || cleaned`). -/
def parseTask (resolve : String → List DateMatch) (now : Int)
    (input : String) : Draft :=
  let r := extractTokens input
  let cleaned := r.cleaned
  let parsed := resolve cleaned
  let due : Option Int := parsed.head?.map (fun m => m.instant)
  let title : String :=
    match parsed.head? with
    | some m =>
      let cs := cleaned.toList
      (trimWs (collapseWs
        (cs.take m.index ++ [' '] ++ cs.drop (m.index + m.text.length)))).asString
    | none => cleaned
  let inferred := inferPriority now cleaned due
  { title := if title = "" then cleaned else title
    due := due
    tags := r.tags
    priority := r.priority.getD inferred }

/-! ### List-view comparator and sorting (`visible`, App.tsx lines 253-261) -/

/-- Priority rank of the comparator: `{ high: 0, medium: 1, low: 2 }`. -/
def pRank : Priority → ℕ
  | .high => 0
  | .medium => 1
  | .low => 2

/-- Rank of the completion flag: incomplete sorts first. -/
def doneRank (t : Task) : ℕ :=
  if t.done then 1 else 0

/-- The due key `a.due || Infinity` of the comparators: JavaScript
truthiness maps both an absent due and a due of `0` to `Infinity`,
modelled as the top element of `WithTop ℤ`. -/
def dueKey (t : Task) : WithTop ℤ :=
  match t.due with
  | some d => if d = 0 then ⊤ else (d : WithTop ℤ)
  | none => ⊤

/-- The list-view comparator (App.tsx lines 254-260).  The JavaScript
comparator returns a number whose sign directs the sort; each branch here
returns an integer of the same sign (the due branch computes
`(a.due || Infinity) - (b.due || Infinity)`, whose sign under the guard
`!==` is exactly the order of the two due keys). -/
def cmpTasks (a b : Task) : Int :=
  if a.done ≠ b.done then (if a.done then 1 else -1)
  else if pRank a.priority ≠ pRank b.priority then
    (pRank a.priority : Int) - (pRank b.priority : Int)
  else if dueKey a ≠ dueKey b then (if dueKey a < dueKey b then -1 else 1)
  else a.createdAt - b.createdAt

/-- The full sort key realised by `cmpTasks`, as a lexicographic
quadruple: completion, priority rank, due key, creation instant. -/
def keyOf (t : Task) : ℕ ×ₗ (ℕ ×ₗ (WithTop ℤ ×ₗ ℤ)) :=
  toLex (doneRank t, toLex (pRank t.priority, toLex (dueKey t, t.createdAt)))

/-- The list-view ordering: a stable sort by `cmpTasks`
(`[...filtered].sort(...)`; ECMAScript `Array.prototype.sort` is
stable, modelled by insertion sort). -/
def sortTasks (l : List Task) : List Task :=
  l.insertionSort (fun a b => cmpTasks a b ≤ 0)

/-! ### Temporal bucketing (`buckets`, App.tsx lines 270-294) -/

/-- The four board columns (`type BucketKey` in App.tsx). -/
inductive BucketKey where
  | today
  | week
  | later
  | done
deriving Repr, DecidableEq

/-- Day length in epoch milliseconds. -/
def dayMs : Int := 86400000

/-- `startOfDay` (App.tsx lines 55-59): `setHours(0, 0, 0, 0)` on the
local calendar.  The local timezone is modelled as a fixed offset `off`
(local wall-clock time = UTC instant + `off` milliseconds), so the start
of the local day containing `t` is the floor of `t + off` to a multiple
of a day, shifted back. -/
def localDayStart (off t : Int) : Int :=
  ((t + off).fdiv dayMs) * dayMs - off

/-- `endOfDay` (App.tsx lines 60-64): `setHours(23, 59, 59, 999)`. -/
def endOfDayAt (off t : Int) : Int :=
  localDayStart off t + 86399999

/-- `addDays` (App.tsx lines 65-69): `setDate(getDate() + days)`, which
under a fixed offset adds whole days. -/
def addDays (t : Int) (days : Int) : Int :=
  t + days * dayMs

/-- JavaScript truthiness of the optional due field (`t.due && ...`). -/
def dueTruthy (t : Task) : Bool :=
  match t.due with
  | some d => d != 0
  | none => false

/-- The due value used once truthiness holds. -/
def dueVal (t : Task) : Int :=
  t.due.getD 0

/-- Bucket assignment of a single task (the branch chain inside the
`for` loop of `buckets`, App.tsx lines 273-281). -/
def bucketOf (todayStart todayEnd weekEnd : Int) (t : Task) : BucketKey :=
  if t.done then .done
  else if dueTruthy t && decide (dueVal t ≤ todayEnd)
      && decide (todayStart ≤ dueVal t) then .today
  else if dueTruthy t && decide (todayEnd < dueVal t)
      && decide (dueVal t ≤ weekEnd) then .week
  else .later

/-- The in-column comparator `byUrgency` (App.tsx lines 284-288):
priority rank, then due key; sign-faithful as for `cmpTasks`. -/
def byUrgency (a b : Task) : Int :=
  if pRank a.priority ≠ pRank b.priority then
    (pRank a.priority : Int) - (pRank b.priority : Int)
  else if dueKey a ≠ dueKey b then (if dueKey a < dueKey b then -1 else 1)
  else 0

/-- The done-column comparator (App.tsx line 292): due key only.
A comparator value of `NaN` (both dues absent) is treated as `0` by
`Array.prototype.sort`. -/
def byDue (a b : Task) : Int :=
  if dueKey a ≠ dueKey b then (if dueKey a < dueKey b then -1 else 1)
  else 0

/-- The board view (`buckets`, App.tsx lines 270-294): each column holds
the filtered tasks assigned to it in input order, then sorted stably by
`byUrgency` (`today`/`week`/`later`) or by due (`done`). -/
def buckets (todayStart todayEnd weekEnd : Int) (l : List Task) :
    BucketKey → List Task := fun k =>
  let col := l.filter (fun t => bucketOf todayStart todayEnd weekEnd t = k)
  match k with
  | .done => col.insertionSort (fun a b => byDue a b ≤ 0)
  | _ => col.insertionSort (fun a b => byUrgency a b ≤ 0)

/-! ### Reschedule transitions (`moveToBucket`, App.tsx lines 345-362) -/

/-- The per-task rewrite performed by `moveToBucket` on the matching
task: `done` marks complete leaving `due` alone; `later` clears `due`;
`today` sets `due` to today's local 17:00:00.000; `week` sets `due` to
09:00:00.000 local three days ahead.  All other fields ride along via
the spread `{ ...t, ... }`. -/
def moveTaskToBucket (off now : Int) (bucket : BucketKey) (t : Task) : Task :=
  match bucket with
  | .done => { t with done := true }
  | .later => { t with due := none, done := false }
  | .today => { t with due := some (localDayStart off now + 61200000), done := false }
  | .week => { t with due := some (localDayStart off (addDays now 3) + 32400000), done := false }

/-- `moveToBucket(id, bucket)` over the whole collection (App.tsx lines
345-362): maps the rewrite over the array, touching only the matching
id. -/
def moveToBucket (off now : Int) (id : String) (bucket : BucketKey)
    (arr : List Task) : List Task :=
  arr.map (fun t => if t.id = id then moveTaskToBucket off now bucket t else t)

/-- `bumpPriority` step (App.tsx lines 332-342): the position in
`["low", "medium", "high"]` moves by `dir` and is clamped to `[0, 2]`. -/
def prioOrder : List Priority := [.low, .medium, .high]

/-- Clamp (App.tsx line 53). -/
def clamp (n lo hi : Int) : Int :=
  max lo (min hi n)

/-- The new priority after one bump in direction `dir` (`+1` or `-1`). -/
def bumpPriority (dir : Int) (p : Priority) : Priority :=
  let idx : Int := (prioOrder.indexOf p : Int)
  (prioOrder.getD (clamp (idx + dir) 0 2).toNat p)

/-! ### JSON import (`importJSON`, App.tsx lines 387-407) -/

/-- JSON values as produced by `JSON.parse` (numbers in this schema are
integral epoch milliseconds, modelled as `Int`). -/
inductive JVal where
  | null
  | bool (b : Bool)
  | num (n : Int)
  | str (s : String)
  | arr (xs : List JVal)
  | obj (fs : List (String × JVal))
deriving Repr

/-- JavaScript truthiness of a JSON value (`null`, `false`, `0` and the
empty string are falsy; arrays and objects are truthy). -/
def truthy : JVal → Bool
  | .null => false
  | .bool b => b
  | .num n => n != 0
  | .str s => s ≠ ""
  | .arr _ => true
  | .obj _ => true

/-- Field lookup on a JSON object body (property access; keys produced by
`JSON.parse` of exports are unique, first match wins). -/
def jlookup : List (String × JVal) → String → Option JVal
  | [], _ => none
  | (k, v) :: fs, key => if k = key then some v else jlookup fs key

/-- `x || default` on an optional property value: a missing or falsy
value yields the default. -/
def orDefault (v : Option JVal) (d : JVal) : JVal :=
  match v with
  | some j => if truthy j then j else d
  | none => d

/-- A task record as it exists after import normalization.  The
normalization copies property values through unchecked casts, so every
field except the `Boolean(...)`-coerced `done` flag may hold an arbitrary
JSON value at runtime; the `due` and `project` fields are `undefined`
(here `none`) when falsy. -/
structure ImportedTask where
  id : JVal
  title : JVal
  notes : JVal
  createdAt : JVal
  due : Option JVal
  tags : List JVal
  project : Option JVal
  priority : JVal
  done : Bool
  subtasks : List JVal
deriving Repr

/-- Normalization of one imported record (the object literal inside
`parsed.map`, App.tsx lines 391-402).  Property access on `null` throws
a `TypeError` (caught by the surrounding `try`); on any non-object it
yields `undefined`.  `fresh` stands for the `uid()` call and `now` for
`Date.now()`. -/
def normalizeRecord (fresh : String) (now : Int) : JVal → Except Unit ImportedTask
  | .null => .error ()
  | .obj fs => .ok
    { id := orDefault (jlookup fs "id") (.str fresh)
      title := orDefault (jlookup fs "title") (.str "Untitled")
      notes := orDefault (jlookup fs "notes") (.str "")
      createdAt := orDefault (jlookup fs "createdAt") (.num now)
      due := match jlookup fs "due" with
        | some j => if truthy j then some j else none
        | none => none
      tags := match jlookup fs "tags" with
        | some (.arr xs) => xs
        | _ => []
      project := match jlookup fs "project" with
        | some j => if truthy j then some j else none
        | none => none
      priority := orDefault (jlookup fs "priority") (.str "medium")
      done := match jlookup fs "done" with
        | some j => truthy j
        | none => false
      subtasks := match jlookup fs "subtasks" with
        | some (.arr xs) => xs
        | _ => [] }
  | _ => .ok
    { id := .str fresh, title := .str "Untitled", notes := .str ""
      createdAt := .num now, due := none, tags := [], project := none
      priority := .str "medium", done := false, subtasks := [] }

/-- `parsed.map(...)` with fresh ids indexed by position; the first
thrown `TypeError` aborts the whole map. -/
def importMap (uids : ℕ → String) (now : Int) : ℕ → List JVal → Except Unit (List ImportedTask)
  | _, [] => .ok []
  | i, v :: vs => do
    let t ← normalizeRecord (uids i) now v
    let ts ← importMap uids now (i + 1) vs
    .ok (t :: ts)

/-- `importJSON` (App.tsx lines 387-407) after `JSON.parse`: a top-level
non-array throws (`Array.isArray` guard), any thrown error is caught and
surfaced via `alert` leaving the collection unchanged; otherwise the
normalized records replace the collection. -/
def importJSON (uids : ℕ → String) (now : Int) (v : JVal)
    (cur : List ImportedTask) : List ImportedTask × Option String :=
  match v with
  | .arr xs =>
    match importMap uids now 0 xs with
    | .ok ts => (ts, none)
    | .error _ => (cur, some "Couldn't import")
  | _ => (cur, some "Couldn't import")

/-! ### JSON export (`saveToFile` invocation, App.tsx line 462) -/

/-- The serialized form of a priority level. -/
def prioStr : Priority → String
  | .low => "low"
  | .medium => "medium"
  | .high => "high"

/-- A stored task record conforming to the export/import schema of spec
section 6: all required keys present with the stated types. -/
structure SchemaTask where
  id : String
  title : String
  notes : String
  createdAt : Int
  due : Option Int
  tags : List String
  project : Option String
  priority : Priority
  done : Bool
  subtasks : List Subtask
deriving Repr, DecidableEq

/-- `JSON.stringify` of one subtask. -/
def encodeSub (s : Subtask) : JVal :=
  .obj [("id", .str s.id), ("title", .str s.title), ("done", .bool s.done)]

/-- Optional property: `JSON.stringify` omits `undefined` members. -/
def optField (k : String) : Option JVal → List (String × JVal)
  | some j => [(k, j)]
  | none => []

/-- `JSON.stringify` of one schema-conforming task record
(`JSON.stringify(tasks, null, 2)` at App.tsx line 462), with keys in
declaration order and `undefined` optional fields omitted. -/
def encodeTask (t : SchemaTask) : JVal :=
  .obj (("id", JVal.str t.id) :: ("title", JVal.str t.title)
    :: ("notes", JVal.str t.notes) :: ("createdAt", JVal.num t.createdAt)
    :: (optField "due" (t.due.map .num)
      ++ [("tags", JVal.arr (t.tags.map .str))]
      ++ optField "project" (t.project.map .str)
      ++ [("priority", JVal.str (prioStr t.priority)),
          ("done", JVal.bool t.done),
          ("subtasks", JVal.arr (t.subtasks.map encodeSub))]))

/-- The export of a whole collection: a top-level JSON array. -/
def exportTasks (l : List SchemaTask) : JVal :=
  .arr (l.map encodeTask)

/-- The lossless image of a schema-conforming record inside the imported
representation: every field wrapped in its JSON constructor, nothing
defaulted.  Re-importing an export "equal in content" to the original
means landing exactly on this image. -/
def toImported (t : SchemaTask) : ImportedTask :=
  { id := .str t.id
    title := .str t.title
    notes := .str t.notes
    createdAt := .num t.createdAt
    due := t.due.map .num
    tags := t.tags.map .str
    project := t.project.map .str
    priority := .str (prioStr t.priority)
    done := t.done
    subtasks := t.subtasks.map encodeSub }

/-- The side conditions under which import normalization is the identity
on an exported record: no field is falsy in a way that triggers a
default (`id`/`title` non-empty, `createdAt` nonzero, a present `due`
nonzero, a present `project` non-empty). -/
def RoundTrips (t : SchemaTask) : Prop :=
  t.id ≠ "" ∧ t.title ≠ "" ∧ t.createdAt ≠ 0
    ∧ (∀ d, t.due = some d → d ≠ 0)
    ∧ (∀ p, t.project = some p → p ≠ "")

/-- No in-text priority-marker pattern (lowercased) occurs in the text;
under this condition only the keyword and due-proximity rules of
`inferPriority` can fire. -/
def noMarkers (text : String) : Prop :=
  hasSub "!high".toList (lowerStr text.toList) = false
  ∧ hasSub "!important".toList (lowerStr text.toList) = false
  ∧ hasSub "!urgent".toList (lowerStr text.toList) = false
  ∧ hasSub "!med".toList (lowerStr text.toList) = false
  ∧ hasSub "!low".toList (lowerStr text.toList) = false

/-- Modelled from the spec: the due key of the ranking comparator as the
spec words it — due ascending, with only an absent due treated as
positive infinity. -/
def dueKeySpec (t : Task) : WithTop ℤ :=
  match t.due with
  | some d => (d : WithTop ℤ)
  | none => ⊤

/-- A tag match starts somewhere in the text: some '#' is immediately
followed by a tag character. -/
def hasTagStart : List Char → Bool
  | [] => false
  | c :: rest => (c = '#' && rest.head?.any isTagChar) || hasTagStart rest

/-! ## Theorems -/

/-- Unfolding of `asString` for concrete character lists. -/
theorem data_asString (l : List Char) : (List.asString l).data = l := rfl

/-- Evaluation of the extraction step on the running example input. -/
theorem extractTokens_email :
    extractTokens "Email Alex tomorrow 3pm #work !high" =
      { cleaned := "Email Alex tomorrow 3pm", tags := ["work"],
        priority := some .high } := by
  simp +decide [extractTokens, stripTags, stripPrio, collapseWs, trimWs,
    trimLeft, trimRightWs, tagMatches, dedupFirst, findPrio, prioAfterBang,
    prioOfGroup, lowerStr, isTagChar, ciStarts]

/-- Claim C1: on input "Email Alex tomorrow 3pm #work !high" with a fixed
reference instant, provided the date resolver returns the single match
"tomorrow 3pm" (at its offset 11 in the cleaned text) resolving to the
instant D, the pipeline produces tags {"work"}, priority high, due D,
and title "Email Alex" with the date span removed and whitespace
collapsed. -/
theorem parseTask_email_example (resolve : String → List DateMatch)
    (D now : Int)
    (h : resolve "Email Alex tomorrow 3pm" =
      [{ text := "tomorrow 3pm", index := 11, instant := D }]) :
    parseTask resolve now "Email Alex tomorrow 3pm #work !high" =
      { title := "Email Alex", due := some D, tags := ["work"],
        priority := .high } := by
  simp only [parseTask, extractTokens_email, h, List.head?,
    Option.map_some, Option.getD_some]
  exact congrArg (fun s => Draft.mk s (some D) ["work"] Priority.high)
    (by simp +decide [collapseWs, trimWs, trimLeft, trimRightWs,
      List.take, List.drop])

/-- Witness for claim C1 at a concrete resolver resolving "tomorrow 3pm"
to the instant 999. -/
theorem parseTask_email_example_witness :
    parseTask
      (fun s => if s = "Email Alex tomorrow 3pm" then
        [{ text := "tomorrow 3pm", index := 11, instant := 999 }] else [])
      0 "Email Alex tomorrow 3pm #work !high" =
      { title := "Email Alex", due := some 999, tags := ["work"],
        priority := .high } :=
  parseTask_email_example _ 999 0 (by simp)

/-- Claim C2 (amended): `inferPriority` first honours in-text priority
markers (`!high`/`!important`/`!urgent` give high, `!med` medium, `!low`
low, interleaved with the urgency keywords), and only then applies the
due-proximity and planning rules; on marker-free text with a nonzero (or
absent) due it agrees with the spec's five-rule contract.  Moreover
`parseTask` applies `inferPriority` to the cleaned (marker-stripped)
text, so an urgency keyword occurring only inside a stripped token, such
as the tag "#today", does not trigger high priority. -/
theorem inferPriority_precedence :
    (∀ (now : Int) (text : String) (due : Option Int),
      noMarkers text → (∀ d, due = some d → d ≠ 0) →
      inferPriority now text due = inferPrioritySpec now text due)
    ∧ parseTask (fun _ => []) 0 "Buy milk #today" =
        { title := "Buy milk", due := none, tags := ["today"],
          priority := .medium } := by
  constructor
  · intro now text due hm hd
    obtain ⟨h1, h2, h3, h4, h5⟩ := hm
    simp only [inferPriority, inferPrioritySpec, h1, h2, h3, h4, h5,
      Bool.false_or, Bool.or_false, Bool.false_eq_true, if_false]
    cases due with
    | none => simp [planningOr, Option.any]
    | some d =>
      have hdz : d ≠ 0 := hd d rfl
      simp [Option.any, hdz, planningOr]
  · simp +decide [parseTask, extractTokens, stripTags, stripPrio,
      collapseWs, trimWs, trimLeft, trimRightWs, tagMatches, dedupFirst,
      findPrio, prioAfterBang, lowerStr, isTagChar, ciStarts,
      inferPriority, planningOr, hasSub, hasWord, hasWordFrom,
      startsList, boundaryOk, isWordChar]

/-- Witness for claim C2 at marker-free text and a due 10 hours ahead. -/
theorem inferPriority_precedence_witness :
    inferPriority 0 "ship the report" (some 36000000) =
      inferPrioritySpec 0 "ship the report" (some 36000000) :=
  inferPriority_precedence.1 0 "ship the report" (some 36000000)
    (by unfold noMarkers; decide) (by intro d h; cases h; decide)

/-- Counterexample to claim C2 as stated: on the input "!low" with no
due, `inferPriority` returns low (the in-text `!low` marker fires before
the due and planning rules), while the spec's five-rule precedence
yields medium. -/
theorem inferPriority_precedence_cex :
    inferPriority 0 "!low" none = .low
    ∧ inferPrioritySpec 0 "!low" none = .medium := by
  constructor <;> decide

/-- Claim C5: field-level effects and frame of the bucket-move rewrite.
`today` sets due to the local 17:00:00.000 of now's calendar day and
clears done; `done` sets done leaving due unchanged; `later` clears due
and done; `week` sets due to the local 09:00:00.000 three calendar days
ahead and clears done; every other field (title, tags, notes, id,
createdAt, subtasks, priority) is unchanged by all four moves. -/
theorem moveToBucket_effects (off now : Int) (t : Task) :
    ((moveTaskToBucket off now .today t).due =
        some (localDayStart off now + 17 * 3600000)
      ∧ (moveTaskToBucket off now .today t).done = false)
    ∧ ((moveTaskToBucket off now .done t).done = true
      ∧ (moveTaskToBucket off now .done t).due = t.due)
    ∧ ((moveTaskToBucket off now .later t).due = none
      ∧ (moveTaskToBucket off now .later t).done = false)
    ∧ ((moveTaskToBucket off now .week t).due =
        some (localDayStart off (addDays now 3) + 9 * 3600000)
      ∧ (moveTaskToBucket off now .week t).done = false)
    ∧ (∀ b : BucketKey,
      (moveTaskToBucket off now b t).title = t.title
      ∧ (moveTaskToBucket off now b t).tags = t.tags
      ∧ (moveTaskToBucket off now b t).notes = t.notes
      ∧ (moveTaskToBucket off now b t).id = t.id
      ∧ (moveTaskToBucket off now b t).createdAt = t.createdAt
      ∧ (moveTaskToBucket off now b t).subtasks = t.subtasks
      ∧ (moveTaskToBucket off now b t).priority = t.priority) := by
  refine ⟨⟨by norm_num [moveTaskToBucket], rfl⟩, ⟨rfl, rfl⟩, ⟨rfl, rfl⟩,
    ⟨by norm_num [moveTaskToBucket], rfl⟩, ?_⟩
  intro b
  cases b <;> exact ⟨rfl, rfl, rfl, rfl, rfl, rfl, rfl⟩

/-- Claim C6: importing any JSON value whose top level is not an array
reports an error and returns the current collection unchanged (the
model is a total function, so no exception escapes). -/
theorem importJSON_nonarray (uids : ℕ → String) (now : Int) (v : JVal)
    (cur : List ImportedTask) (h : ∀ xs, v ≠ JVal.arr xs) :
    importJSON uids now v cur = (cur, some "Couldn't import") := by
  cases v with
  | arr xs => exact absurd rfl (h xs)
  | null => rfl
  | bool b => rfl
  | num n => rfl
  | str s => rfl
  | obj fs => rfl

/-- Witness for claim C6 at the non-array top-level value 3. -/
theorem importJSON_nonarray_witness :
    importJSON (fun _ => "u") 0 (JVal.num 3) [] =
      ([], some "Couldn't import") :=
  importJSON_nonarray _ _ _ _ (fun _ h => JVal.noConfusion h)

/-- Claim C8, failing input: importing the record
`{"priority": "banana"}` stores the non-level string "banana" as the
task's priority — the `(t.priority as Priority) || "medium"` cast only
replaces falsy values, so the stored-task priority invariant is
violated by import of arbitrary records. -/
theorem importJSON_priority_unvalidated :
    (importJSON (fun _ => "u") 0
        (JVal.arr [JVal.obj [("priority", JVal.str "banana")]]) []).1.map
      (fun t => t.priority) = [JVal.str "banana"]
    ∧ JVal.str "banana" ≠ JVal.str "low"
    ∧ JVal.str "banana" ≠ JVal.str "medium"
    ∧ JVal.str "banana" ≠ JVal.str "high" := by
  refine ⟨rfl, ?_, ?_, ?_⟩ <;> simp

/-- Counterexample to claim C9 as stated: extraction is not idempotent.
On the input "#!highwork" the text carries no tag match (the "#" is
followed by "!"), but stripping the priority marker "!high" glues "#"
to "work", so the cleaned text "#work" contains a fresh tag and
re-running extraction yields the non-empty tag set {"work"}. -/
theorem extract_idempotent_cex :
    (extractTokens "#!highwork").cleaned = "#work"
    ∧ (extractTokens (extractTokens "#!highwork").cleaned).tags =
        ["work"] := by
  constructor <;>
    simp +decide [extractTokens, stripTags, stripPrio, collapseWs, trimWs,
      trimLeft, trimRightWs, tagMatches, dedupFirst, findPrio,
      prioAfterBang, lowerStr, isTagChar, ciStarts, data_asString,
      String.toList]

/-- Claim C10: a due timestamp of exactly 0 is treated as absent
everywhere — the comparator due key is positive infinity (so the
ranking comparator and both per-bucket comparators behave as for a task
with no due), bucketing sends a not-done task with due 0 to `later`
without consulting the day boundaries, and import normalization turns a
due of 0 into an absent due. -/
theorem dueZero_as_absent :
    (∀ t : Task, t.due = some 0 →
      dueKey t = ⊤ ∧ dueKey t = dueKey { t with due := none })
    ∧ (∀ a b : Task, a.due = some 0 →
      cmpTasks a b = cmpTasks { a with due := none } b
      ∧ cmpTasks b a = cmpTasks b { a with due := none }
      ∧ byUrgency a b = byUrgency { a with due := none } b
      ∧ byDue a b = byDue { a with due := none } b)
    ∧ (∀ todayStart todayEnd weekEnd : Int, ∀ t : Task,
      t.due = some 0 → t.done = false →
      bucketOf todayStart todayEnd weekEnd t = .later)
    ∧ (∀ (fresh : String) (now : Int) (fs : List (String × JVal)),
      jlookup fs "due" = some (JVal.num 0) →
      ∃ it, normalizeRecord fresh now (JVal.obj fs) = .ok it
        ∧ it.due = none) := by
  refine ⟨?_, ?_, ?_, ?_⟩
  · intro t h
    exact ⟨by simp [dueKey, h], by simp [dueKey, h]⟩
  · intro a b h
    have hk : dueKey a = dueKey { a with due := none } := by
      simp [dueKey, h]
    exact ⟨by simp only [cmpTasks, hk], by simp only [cmpTasks, hk],
      by simp only [byUrgency, hk], by simp only [byDue, hk]⟩
  · intro ts te we t h hdone
    simp [bucketOf, dueTruthy, h, hdone]
  · intro fresh now fs h
    exact ⟨_, rfl, by simp [h, truthy]⟩

/-- Witness for claim C10 at a concrete task with due 0 and a
concrete imported record. -/
theorem dueZero_as_absent_witness :
    dueKey (Task.mk "a" "t" none 0 (some 0) [] none .medium false []) = ⊤
    ∧ bucketOf 0 100 200
        (Task.mk "a" "t" none 0 (some 0) [] none .medium false []) =
      .later :=
  ⟨(dueZero_as_absent.1 _ rfl).1, dueZero_as_absent.2.2.1 0 100 200 _ rfl rfl⟩

/-- The comparator sign is negative exactly when the lexicographic sort
key decreases. -/
theorem cmp_lt_iff (a b : Task) : cmpTasks a b < 0 ↔ keyOf a < keyOf b := by
  unfold cmpTasks keyOf
  simp only [Prod.Lex.lt_iff]
  by_cases hd : a.done = b.done
  · have hdr : doneRank a = doneRank b := by simp [doneRank, hd]
    by_cases hp : pRank a.priority = pRank b.priority
    · by_cases hk : dueKey a = dueKey b
      · simp [hd, hp, hk, hdr]
      · by_cases hlt : dueKey a < dueKey b
        · simp [hd, hp, hk, hdr, hlt]
        · simp [hd, hp, hk, hdr, hlt]
    · simp [hd, hp, hdr]
  · have hdr : doneRank a ≠ doneRank b := by
      simp only [doneRank]
      cases ha : a.done <;> cases hb : b.done <;> simp_all
    simp only [hd, hdr, ne_eq, not_false_eq_true, if_true, false_and,
      or_false]
    cases ha : a.done <;> cases hb : b.done <;> simp_all [doneRank]

/-- The comparator is zero exactly when the sort keys coincide. -/
theorem cmp_eq_iff (a b : Task) : cmpTasks a b = 0 ↔ keyOf a = keyOf b := by
  unfold cmpTasks keyOf
  simp only [toLex_inj, Prod.mk.injEq]
  by_cases hd : a.done = b.done
  · have hdr : doneRank a = doneRank b := by simp [doneRank, hd]
    by_cases hp : pRank a.priority = pRank b.priority
    · by_cases hk : dueKey a = dueKey b
      · simp [hd, hp, hk, hdr]
        omega
      · by_cases hlt : dueKey a < dueKey b
        · simp [hd, hp, hk, hdr, hlt]
        · simp [hd, hp, hk, hdr, hlt]
    · simp [hd, hp, hdr]
      omega
  · have hdr : doneRank a ≠ doneRank b := by
      simp only [doneRank]
      cases ha : a.done <;> cases hb : b.done <;> simp_all
    simp only [hd, hdr, ne_eq, not_false_eq_true, if_true, false_and,
      or_false]
    cases ha : a.done <;> simp_all

/-- The comparator is non-positive exactly when the sort keys are
ordered. -/
theorem cmp_le_iff (a b : Task) : cmpTasks a b ≤ 0 ↔ keyOf a ≤ keyOf b := by
  constructor
  · intro h
    rcases lt_or_eq_of_le h with h1 | h1
    · exact le_of_lt ((cmp_lt_iff a b).mp h1)
    · exact le_of_eq ((cmp_eq_iff a b).mp h1)
  · intro h
    rcases lt_or_eq_of_le h with h1 | h1
    · exact le_of_lt ((cmp_lt_iff a b).mpr h1)
    · exact le_of_eq ((cmp_eq_iff a b).mpr h1)

/-- Counterexample to claim C3 as stated: two incomplete tasks of equal
priority and creation instant whose dues are 0 and 5.  Due-ascending
order ("absent due treated as positive infinity") would put the due-0
task first, but the comparator treats the falsy due 0 as infinity and
sorts it last. -/
theorem sortTasks_due_zero_cex :
    dueKeySpec (Task.mk "a" "t" none 0 (some 0) [] none .medium false []) <
      dueKeySpec (Task.mk "b" "t" none 0 (some 5) [] none .medium false [])
    ∧ cmpTasks (Task.mk "a" "t" none 0 (some 0) [] none .medium false [])
        (Task.mk "b" "t" none 0 (some 5) [] none .medium false []) = 1
    ∧ sortTasks [Task.mk "a" "t" none 0 (some 0) [] none .medium false [],
        Task.mk "b" "t" none 0 (some 5) [] none .medium false []] =
      [Task.mk "b" "t" none 0 (some 5) [] none .medium false [],
        Task.mk "a" "t" none 0 (some 0) [] none .medium false []] := by
  refine ⟨?_, ?_, ?_⟩ <;> decide

/-- Claim C3 (amended): the list-view sort is the stable sort by the
lexicographic key (incomplete before complete; priority rank
high 0 < medium 1 < low 2; due ascending with an absent — or zero — due
treated as positive infinity; createdAt ascending), in the sense that
the comparator sign characterizes exactly that key order, the sorted
output is a permutation of the input sorted by the key, every done task
comes after every not-done task, and tasks with equal keys keep their
relative input order (stability, hence determinism). -/
theorem sortTasks_spec :
    (∀ a b : Task, (cmpTasks a b < 0 ↔ keyOf a < keyOf b)
      ∧ (cmpTasks a b = 0 ↔ keyOf a = keyOf b))
    ∧ (∀ l : List Task, (sortTasks l).Perm l)
    ∧ (∀ l : List Task,
      (sortTasks l).Sorted (fun a b => keyOf a ≤ keyOf b))
    ∧ (∀ l : List Task,
      (sortTasks l).Pairwise (fun a b => a.done = true → b.done = true))
    ∧ (∀ (a b : Task) (l : List Task), keyOf a = keyOf b →
      List.Sublist [a, b] l → List.Sublist [a, b] (sortTasks l)) := by
  have hsorted : ∀ l : List Task,
      (sortTasks l).Sorted (fun a b => keyOf a ≤ keyOf b) := by
    intro l
    haveI ht : IsTotal Task (fun a b => cmpTasks a b ≤ 0) := by
      constructor
      intro a b
      rcases le_total (keyOf a) (keyOf b) with h | h
      · exact Or.inl ((cmp_le_iff a b).mpr h)
      · exact Or.inr ((cmp_le_iff b a).mpr h)
    haveI htr : IsTrans Task (fun a b => cmpTasks a b ≤ 0) := by
      constructor
      intro a b c hab hbc
      exact (cmp_le_iff a c).mpr
        (le_trans ((cmp_le_iff a b).mp hab) ((cmp_le_iff b c).mp hbc))
    have hs := List.sorted_insertionSort (fun a b => cmpTasks a b ≤ 0) l
    exact hs.imp (fun h => (cmp_le_iff _ _).mp h)
  refine ⟨fun a b => ⟨cmp_lt_iff a b, cmp_eq_iff a b⟩,
    fun l => List.perm_insertionSort _ l, hsorted, ?_, ?_⟩
  · intro l
    refine (hsorted l).imp ?_
    intro a b h ha
    have h1 : doneRank a ≤ doneRank b := by
      rcases (Prod.Lex.le_iff _ _).mp h with h2 | ⟨h2, _⟩
      · exact le_of_lt h2
      · exact le_of_eq h2
    simp only [doneRank, ha, if_true] at h1
    by_cases hb : b.done = true
    · exact hb
    · simp [hb] at h1
  · intro a b l hk h
    exact List.pair_sublist_insertionSort
      ((cmp_le_iff a b).mpr (le_of_eq hk)) h

/-- Witness for claim C3: stability applied to two equal-key tasks
differing only in their id. -/
theorem sortTasks_spec_witness :
    List.Sublist
      [Task.mk "a" "t" none 0 none [] none .medium false [],
        Task.mk "b" "t" none 0 none [] none .medium false []]
      (sortTasks [Task.mk "a" "t" none 0 none [] none .medium false [],
        Task.mk "b" "t" none 0 none [] none .medium false []]) :=
  sortTasks_spec.2.2.2.2 _ _ _ rfl (List.Sublist.refl _)

/-- The local day start shifts by whole days. -/
theorem localDayStart_add_days (off t k : Int) :
    localDayStart off (t + k * dayMs) = localDayStart off t + k * dayMs := by
  unfold localDayStart dayMs
  have h : t + k * 86400000 + off = t + off + k * 86400000 := by ring
  rw [h, Int.fdiv_eq_ediv _ (by norm_num), Int.fdiv_eq_ediv _ (by norm_num),
    Int.add_mul_ediv_right _ _ (by norm_num)]
  ring

/-- Claim C4: for every task and instant (located on or after the first
post-epoch local day boundary, so that the day-end instants are nonzero
and hence truthy), bucketing sends done tasks to `done`; a not-done task
due exactly at `todayEnd` (23:59:59.999 local) to `today` (inclusive
bound); a not-done task due 1 millisecond after `todayEnd` to `week`
when its due is at most `weekEnd`, else `later` (and `weekEnd`, the
day-end 7 days out, always lies beyond `todayEnd + 1`); and a not-done
task with no due to `later`. -/
theorem bucketOf_boundaries (off now : Int) (t : Task)
    (hls : 0 ≤ localDayStart off now) :
    (t.done = true → ∀ ts te we : Int, bucketOf ts te we t = .done)
    ∧ (t.done = false → t.due = some (endOfDayAt off now) →
      bucketOf (localDayStart off now) (endOfDayAt off now)
        (endOfDayAt off (addDays now 7)) t = .today)
    ∧ (t.done = false → t.due = some (endOfDayAt off now + 1) →
      bucketOf (localDayStart off now) (endOfDayAt off now)
        (endOfDayAt off (addDays now 7)) t =
        if endOfDayAt off now + 1 ≤ endOfDayAt off (addDays now 7)
          then .week else .later)
    ∧ (t.done = false → t.due = none →
      ∀ ts te we : Int, bucketOf ts te we t = .later)
    ∧ endOfDayAt off now + 1 ≤ endOfDayAt off (addDays now 7) := by
  have hwk : endOfDayAt off (addDays now 7) =
      endOfDayAt off now + 7 * dayMs := by
    unfold endOfDayAt addDays
    rw [localDayStart_add_days]
    ring
  have hlast : endOfDayAt off now + 1 ≤ endOfDayAt off (addDays now 7) := by
    rw [hwk]
    unfold dayMs
    omega
  refine ⟨?_, ?_, ?_, ?_, hlast⟩
  · intro h ts te we
    simp [bucketOf, h]
  · intro hdone hdue
    have h0 : endOfDayAt off now ≠ 0 := by
      unfold endOfDayAt
      omega
    have h1 : localDayStart off now ≤ endOfDayAt off now := by
      unfold endOfDayAt
      omega
    simp [bucketOf, hdone, dueTruthy, dueVal, hdue, h0, h1]
  · intro hdone hdue
    have h0 : endOfDayAt off now + 1 ≠ 0 := by
      unfold endOfDayAt
      omega
    have h2 : ¬ endOfDayAt off now + 1 ≤ endOfDayAt off now := by omega
    have h3 : endOfDayAt off now < endOfDayAt off now + 1 := by omega
    rw [if_pos hlast]
    simp [bucketOf, hdone, dueTruthy, dueVal, hdue, h0, h2, h3, hlast]
  · intro hdone hdue ts te we
    simp [bucketOf, hdone, dueTruthy, hdue]

/-- Witness for claim C4 at offset 0, one day past the epoch: the task
due exactly at that day's 23:59:59.999 lands in `today`. -/
theorem bucketOf_boundaries_witness :
    bucketOf (localDayStart 0 86400000) (endOfDayAt 0 86400000)
      (endOfDayAt 0 (addDays 86400000 7))
      (Task.mk "a" "t" none 0 (some 172799999) [] none .medium false []) =
      .today :=
  (bucketOf_boundaries 0 86400000 _ (by decide)).2.1 rfl (by decide)

/-- A tag match cannot start anywhere in marker-free text, so the tag
scan finds nothing. -/
theorem tagMatches_eq_nil (l : List Char) (h : hasTagStart l = false) :
    tagMatches l = [] := by
  induction l using tagMatches.induct with
  | case1 => simp [tagMatches]
  | case2 c cs hc ih =>
    exfalso
    simp only [hasTagStart, Bool.or_eq_false_iff] at h
    simp [h.1] at hc
  | case3 c cs hc ih =>
    simp only [hasTagStart, Bool.or_eq_false_iff] at h
    simp only [tagMatches, if_neg hc]
    exact ih h.2

/-- The priority-marker scan finds nothing in text without a bang. -/
theorem findPrio_eq_none (l : List Char) (h : ∀ c ∈ l, c ≠ '!') :
    findPrio l = none := by
  induction l with
  | nil => rfl
  | cons c cs ih =>
    have hc : c ≠ '!' := h c (List.mem_cons_self c cs)
    simp only [findPrio, if_neg hc]
    exact ih (fun x hx => h x (List.mem_cons_of_mem c hx))

/-- Tag stripping only deletes characters. -/
theorem mem_stripTags (l : List Char) (c : Char) (h : c ∈ stripTags l) :
    c ∈ l := by
  induction l using stripTags.induct with
  | case1 => simp [stripTags] at h
  | case2 x cs hc ih =>
    rw [stripTags, if_pos hc] at h
    exact List.mem_cons_of_mem x ((List.dropWhile_sublist _).subset (ih h))
  | case3 x cs hc ih =>
    rw [stripTags, if_neg hc] at h
    rcases List.mem_cons.mp h with rfl | h2
    · exact List.mem_cons_self _ _
    · exact List.mem_cons_of_mem x (ih h2)

/-- Priority-marker stripping is the identity on bang-free text. -/
theorem stripPrio_id (l : List Char) (h : ∀ c ∈ l, c ≠ '!') :
    stripPrio l = l := by
  induction l with
  | nil => simp [stripPrio]
  | cons c cs ih =>
    have hc : c ≠ '!' := h c (List.mem_cons_self c cs)
    rw [stripPrio.eq_def]
    simp only [if_neg hc]
    rw [ih (fun x hx => h x (List.mem_cons_of_mem c hx))]

/-- If the stripped text starts with a tag character, that character was
already the head of the input (a removed tag match is always followed by
a non-tag character, by greediness). -/
theorem head_stripTags (l : List Char) :
    ∀ c, isTagChar c = true → (stripTags l).head? = some c →
      l.head? = some c := by
  induction l using stripTags.induct with
  | case1 => intro c _ hh; simp [stripTags] at hh
  | case2 x cs hc ih =>
    intro c htc hh
    rw [stripTags, if_pos hc] at hh
    have h2 := ih c htc hh
    have h3 := List.head?_dropWhile_not isTagChar cs
    rw [h2] at h3
    simp only at h3
    rw [h3] at htc
    cases htc
  | case3 x cs hc ih =>
    intro c htc hh
    rw [stripTags, if_neg hc] at hh
    simpa using hh

/-- Tag stripping leaves no tag start behind. -/
theorem stripTags_noTagStart (l : List Char) :
    hasTagStart (stripTags l) = false := by
  induction l using stripTags.induct with
  | case1 => simp [stripTags, hasTagStart]
  | case2 x cs hc ih => rw [stripTags, if_pos hc]; exact ih
  | case3 x cs hc ih =>
    rw [stripTags, if_neg hc]
    simp only [hasTagStart, Bool.or_eq_false_iff]
    refine ⟨?_, ih⟩
    by_cases hx : x = '#'
    · cases hhead : (stripTags cs).head? with
      | none => simp [hhead]
      | some c0 =>
        cases htc : isTagChar c0 with
        | false => simp [hhead, htc]
        | true =>
          exfalso
          have h2 := head_stripTags cs c0 htc hhead
          apply hc
          simp [hx, h2, htc]
    · simp [hx]

/-- The absence of a tag start is inherited by the tail. -/
theorem hasTagStart_cons_false {c : Char} {l : List Char}
    (h : hasTagStart (c :: l) = false) : hasTagStart l = false := by
  simp only [hasTagStart, Bool.or_eq_false_iff] at h
  exact h.2

/-- The absence of a tag start is preserved by dropping a run. -/
theorem hasTagStart_dropWhile (p : Char → Bool) (l : List Char)
    (h : hasTagStart l = false) : hasTagStart (l.dropWhile p) = false := by
  induction l with
  | nil => exact h
  | cons c cs ih =>
    rw [List.dropWhile]
    cases hp : p c with
    | true => exact ih (hasTagStart_cons_false h)
    | false => exact h

/-- Whitespace collapsing only keeps input characters or inserts a
space. -/
theorem mem_collapseWs (l : List Char) (c : Char) (h : c ∈ collapseWs l) :
    c = ' ' ∨ c ∈ l := by
  induction l using collapseWs.induct with
  | case1 => simp [collapseWs] at h
  | case2 x cs hc ih =>
    rw [collapseWs, if_pos hc] at h
    rcases List.mem_cons.mp h with rfl | h2
    · exact Or.inl rfl
    · rcases ih h2 with h3 | h3
      · exact Or.inl h3
      · exact Or.inr (List.mem_cons_of_mem x ((List.dropWhile_sublist _).subset h3))
  | case3 x cs hc ih =>
    rw [collapseWs, if_neg hc] at h
    rcases List.mem_cons.mp h with rfl | h2
    · exact Or.inr (List.mem_cons_self _ _)
    · rcases ih h2 with h3 | h3
      · exact Or.inl h3
      · exact Or.inr (List.mem_cons_of_mem x h3)

/-- The head of the collapsed text is a space or the input head. -/
theorem head_collapseWs (l : List Char) :
    ∀ c, (collapseWs l).head? = some c → c = ' ' ∨ l.head? = some c := by
  induction l using collapseWs.induct with
  | case1 => intro c hh; simp [collapseWs] at hh
  | case2 x cs hc ih =>
    intro c hh
    rw [collapseWs, if_pos hc] at hh
    simp only [List.head?_cons, Option.some.injEq] at hh
    exact Or.inl hh.symm
  | case3 x cs hc ih =>
    intro c hh
    rw [collapseWs, if_neg hc] at hh
    simp only [List.head?_cons, Option.some.injEq] at hh
    exact Or.inr (by simp [hh])

/-- Whitespace collapsing cannot create a tag start. -/
theorem collapseWs_noTagStart (l : List Char)
    (h : hasTagStart l = false) : hasTagStart (collapseWs l) = false := by
  induction l using collapseWs.induct with
  | case1 => simp [collapseWs, hasTagStart]
  | case2 x cs hc ih =>
    rw [collapseWs, if_pos hc]
    simp only [hasTagStart, Bool.or_eq_false_iff]
    refine ⟨by simp, ih (hasTagStart_dropWhile _ _ (hasTagStart_cons_false h))⟩
  | case3 x cs hc ih =>
    rw [collapseWs, if_neg hc]
    simp only [hasTagStart, Bool.or_eq_false_iff]
    have h2 := hasTagStart_cons_false h
    refine ⟨?_, ih h2⟩
    by_cases hx : x = '#'
    · cases hhead : (collapseWs cs).head? with
      | none => simp [hhead]
      | some c0 =>
        cases htc : isTagChar c0 with
        | false => simp [hhead, htc]
        | true =>
          exfalso
          rcases head_collapseWs cs c0 hhead with rfl | h3
          · simp [isTagChar] at htc
          · simp only [hasTagStart, Bool.or_eq_false_iff] at h
            rw [h3] at h
            simp [hx, htc] at h
    · simp [hx]

/-- The head of a prefix is the head of the list. -/
theorem head_take (n : ℕ) (l : List Char) (c : Char)
    (h : (l.take n).head? = some c) : l.head? = some c := by
  cases n with
  | zero => simp at h
  | succ m =>
    cases l with
    | nil => simp at h
    | cons x xs => simpa using h

/-- The absence of a tag start is preserved by taking a prefix. -/
theorem hasTagStart_take (n : ℕ) (l : List Char)
    (h : hasTagStart l = false) : hasTagStart (l.take n) = false := by
  induction l generalizing n with
  | nil => simp [List.take_nil]; exact h
  | cons c cs ih =>
    cases n with
    | zero => rfl
    | succ m =>
      simp only [List.take_succ_cons, hasTagStart, Bool.or_eq_false_iff]
      simp only [hasTagStart, Bool.or_eq_false_iff] at h
      refine ⟨?_, ih m h.2⟩
      cases hhead : (cs.take m).head? with
      | none => simp [hhead]
      | some c0 =>
        cases htc : isTagChar c0 with
        | false => simp [hhead, htc]
        | true =>
          have h3 := head_take m cs c0 hhead
          rcases h with ⟨h4, _⟩
          rw [h3] at h4
          simp [htc] at h4
          simp [hhead, htc, h4]

/-- Dropping a run is dropping the length of the taken run. -/
theorem dropWhile_eq_drop (p : Char → Bool) (l : List Char) :
    l.dropWhile p = l.drop (l.takeWhile p).length := by
  induction l with
  | nil => rfl
  | cons c cs ih =>
    rw [List.dropWhile, List.takeWhile]
    cases hp : p c with
    | true => simpa using ih
    | false => rfl

/-- The right trim is a prefix of the input. -/
theorem trimRightWs_eq_take (l : List Char) :
    trimRightWs l =
      l.take (l.length - (l.reverse.takeWhile Char.isWhitespace).length) := by
  unfold trimRightWs
  rw [dropWhile_eq_drop, List.reverse_drop, List.reverse_reverse,
    List.length_reverse]

/-- Trimming cannot create a tag start. -/
theorem trimWs_noTagStart (l : List Char) (h : hasTagStart l = false) :
    hasTagStart (trimWs l) = false := by
  unfold trimWs trimLeft
  rw [trimRightWs_eq_take]
  exact hasTagStart_take _ _ (hasTagStart_dropWhile _ _ h)

/-- Trimming only deletes characters. -/
theorem mem_trimWs (l : List Char) (c : Char) (h : c ∈ trimWs l) : c ∈ l := by
  unfold trimWs trimLeft at h
  rw [trimRightWs_eq_take] at h
  exact (List.dropWhile_sublist _).subset ((List.take_sublist _ _).subset h)

/-- Claim C9 (amended): on every input containing no '!' character,
extraction is idempotent — re-running it on its own cleaned text yields
an empty tag set and no explicit priority.  (On inputs with a '!' this
can fail: stripping a priority marker may glue '#' onto following word
characters, creating a fresh tag.) -/
theorem extract_idempotent_no_bang (text : String)
    (h : ∀ c ∈ text.toList, c ≠ '!') :
    (extractTokens (extractTokens text).cleaned).tags = []
    ∧ (extractTokens (extractTokens text).cleaned).priority = none := by
  have hstrip : stripPrio (stripTags text.data) = stripTags text.data :=
    stripPrio_id _ (fun c hc => h c (mem_stripTags _ c hc))
  have hts : hasTagStart (trimWs (collapseWs (stripTags text.data))) = false :=
    trimWs_noTagStart _ (collapseWs_noTagStart _ (stripTags_noTagStart _))
  have hbang : ∀ c ∈ trimWs (collapseWs (stripTags text.data)), c ≠ '!' := by
    intro c hc
    rcases mem_collapseWs _ c (mem_trimWs _ c hc) with rfl | h2
    · decide
    · exact h c (mem_stripTags _ c h2)
  constructor
  · simp only [extractTokens, data_asString, String.toList]
    rw [hstrip, tagMatches_eq_nil _ hts]
    simp [dedupFirst]
  · simp only [extractTokens, data_asString, String.toList]
    rw [hstrip, findPrio_eq_none _ hbang]
    rfl

/-- Witness for claim C9 on a bang-free input with a tag. -/
theorem extract_idempotent_no_bang_witness :
    (extractTokens (extractTokens "Email #work team").cleaned).tags = []
    ∧ (extractTokens (extractTokens "Email #work team").cleaned).priority =
      none :=
  extract_idempotent_no_bang _ (by decide)

/-- Import normalization is the identity on an exported record that
satisfies the non-degeneracy side conditions. -/
theorem normalizeRecord_encode (fresh : String) (now : Int) (t : SchemaTask)
    (h : RoundTrips t) :
    normalizeRecord fresh now (encodeTask t) = .ok (toImported t) := by
  obtain ⟨hid, htitle, hcreated, hdue, hproj⟩ := h
  rcases t with ⟨id, title, notes, createdAt, due, tags, project, priority,
    done, subtasks⟩
  simp only at hid htitle hcreated hdue hproj
  cases due with
  | none =>
    cases project with
    | none =>
      simp [encodeTask, optField, normalizeRecord, jlookup, orDefault,
        truthy, toImported, hid, htitle, hcreated]
      cases priority <;> simp [prioStr, truthy] <;> exact fun h => h.symm
    | some p =>
      have hp : p ≠ "" := hproj p rfl
      simp [encodeTask, optField, normalizeRecord, jlookup, orDefault,
        truthy, toImported, hid, htitle, hcreated, hp]
      cases priority <;> simp [prioStr, truthy] <;> exact fun h => h.symm
  | some d =>
    have hd : d ≠ 0 := hdue d rfl
    cases project with
    | none =>
      simp [encodeTask, optField, normalizeRecord, jlookup, orDefault,
        truthy, toImported, hid, htitle, hcreated, hd]
      cases priority <;> simp [prioStr, truthy] <;> exact fun h => h.symm
    | some p =>
      have hp : p ≠ "" := hproj p rfl
      simp [encodeTask, optField, normalizeRecord, jlookup, orDefault,
        truthy, toImported, hid, htitle, hcreated, hd, hp]
      cases priority <;> simp [prioStr, truthy] <;> exact fun h => h.symm

/-- The record-wise identity lifts to the imported list. -/
theorem importMap_encode (uids : ℕ → String) (now : Int)
    (l : List SchemaTask) (h : ∀ t ∈ l, RoundTrips t) : ∀ i,
    importMap uids now i (l.map encodeTask) = .ok (l.map toImported) := by
  induction l with
  | nil => intro i; rfl
  | cons t ts ih =>
    intro i
    have ht := h t (List.mem_cons_self t ts)
    have hts : ∀ x ∈ ts, RoundTrips x :=
      fun x hx => h x (List.mem_cons_of_mem t hx)
    simp [importMap, normalizeRecord_encode (uids i) now t ht, ih hts (i + 1)]
    rfl

/-- Subtask encoding is lossless. -/
theorem encodeSub_injective : Function.Injective encodeSub := by
  intro a b h
  cases a
  cases b
  simp [encodeSub] at h
  obtain ⟨h1, h2, h3⟩ := h
  simp [h1, h2, h3]

/-- The imported image of a schema record determines the record: landing
on it really is content equality. -/
theorem toImported_injective : Function.Injective toImported := by
  intro a b h
  cases a
  cases b
  simp only [toImported, ImportedTask.mk.injEq, JVal.str.injEq,
    JVal.num.injEq] at h
  obtain ⟨h1, h2, h3, h4, h5, h6, h7, h8, h9, h10⟩ := h
  have hnum : Function.Injective JVal.num := fun x y hxy => JVal.num.inj hxy
  have hstr : Function.Injective JVal.str := fun x y hxy => JVal.str.inj hxy
  have hprio : ∀ p q : Priority, prioStr p = prioStr q → p = q := by
    intro p q hpq
    cases p <;> cases q <;> first | rfl | (exfalso; simp [prioStr] at hpq)
  simp only [SchemaTask.mk.injEq]
  exact ⟨h1, h2, h3, h4, Option.map_injective hnum h5,
    List.map_injective_iff.mpr hstr h6, Option.map_injective hstr h7,
    hprio _ _ h8, h9, List.map_injective_iff.mpr encodeSub_injective h10⟩

/-- Counterexample to claim C7 as stated: the record with createdAt 0
conforms to the schema (createdAt is an integer epoch instant), but the
normalization treats the falsy 0 as missing and replaces it with the
import-time instant, so the re-imported collection differs in content
from the original. -/
theorem export_import_roundtrip_cex :
    (importJSON (fun _ => "u") 1000
        (exportTasks [SchemaTask.mk "a" "T" "" 0 none [] none .medium
          false []]) []).1.map (fun it => it.createdAt) = [JVal.num 1000]
    ∧ (toImported (SchemaTask.mk "a" "T" "" 0 none [] none .medium
        false [])).createdAt = JVal.num 0
    ∧ (importJSON (fun _ => "u") 1000
        (exportTasks [SchemaTask.mk "a" "T" "" 0 none [] none .medium
          false []]) []).1 ≠
      [toImported (SchemaTask.mk "a" "T" "" 0 none [] none .medium
        false [])] := by
  refine ⟨rfl, rfl, ?_⟩
  intro h
  have h1 : (importJSON (fun _ => "u") 1000
      (exportTasks [SchemaTask.mk "a" "T" "" 0 none [] none .medium
        false []]) []).1.map (fun it => it.createdAt) = [JVal.num 1000] := rfl
  rw [h] at h1
  simp [toImported] at h1

/-- Claim C7 (amended): exporting a schema-conforming collection and
re-importing the export reproduces the collection content exactly
(each record lands on its lossless imported image, and that image is
injective), provided no record carries a falsy field that import
normalization would default: ids and titles non-empty, createdAt
nonzero, any present due nonzero, any present project non-empty. -/
theorem export_import_roundtrip :
    (∀ (uids : ℕ → String) (now : Int) (cur : List ImportedTask)
      (l : List SchemaTask), (∀ t ∈ l, RoundTrips t) →
      importJSON uids now (exportTasks l) cur = (l.map toImported, none))
    ∧ Function.Injective toImported := by
  constructor
  · intro uids now cur l h
    simp [importJSON, exportTasks, importMap_encode uids now l h 0]
  · exact toImported_injective

/-- Witness for claim C7 on a one-record collection exercising every
field. -/
theorem export_import_roundtrip_witness :
    importJSON (fun _ => "u") 1000
      (exportTasks [SchemaTask.mk "a" "T" "" 7 (some 9) ["work"] (some "p")
        .medium false [Subtask.mk "s" "u" true]]) [] =
      ([toImported (SchemaTask.mk "a" "T" "" 7 (some 9) ["work"] (some "p")
        .medium false [Subtask.mk "s" "u" true])], none) :=
  export_import_roundtrip.1 _ _ _ _ (by
    intro t ht
    rcases List.mem_singleton.mp ht with rfl
    exact ⟨by decide, by decide, by decide,
      fun d hd => by cases hd; decide, fun p hp => by cases hp; decide⟩)

end App
